import Mathlib

set_option maxHeartbeats 1000000

/-!
Verification of the task_scheduling repository: the mTSP MILP formulation
built by mtsp_solver (src/task_scheduling/mtsp_problem.py) and the
pairwise-distance helper (src/task_scheduling/utils.py).

The model-building phase (lines 64-104) is embedded as an explicit list of
linear constraints over the solver variables; the route-extraction phase
(lines 112-133) is embedded as a fuel-indexed recursion, with fuel
exhaustion (value none) standing for nontermination of the Python while
loop.
-/

/-- Decision variables of the MILP model: binary edge variables e i j
(line 70) and integer position variables u i (line 78). -/
inductive MVar where
  | e (i j : ℕ)
  | u (i : ℕ)
deriving DecidableEq

/-- Sense of a linear constraint. -/
inductive CRel where
  | le
  | ge
  | eq
deriving DecidableEq

/-- A linear constraint: a list of (coefficient, variable) terms, a sense,
and a right-hand side, exactly as passed to m.addConstr. -/
structure LinConstr where
  terms : List (ℤ × MVar)
  rel : CRel
  rhs : ℤ
deriving DecidableEq

def evalTerms (v : MVar → ℤ) (ts : List (ℤ × MVar)) : ℤ :=
  (ts.map (fun t => t.1 * v t.2)).sum

def constrHolds (v : MVar → ℤ) (c : LinConstr) : Bool :=
  match c.rel with
  | CRel.le => decide (evalTerms v c.terms ≤ c.rhs)
  | CRel.ge => decide (c.rhs ≤ evalTerms v c.terms)
  | CRel.eq => decide (evalTerms v c.terms = c.rhs)

def modelHolds (v : MVar → ℤ) (cs : List LinConstr) : Bool :=
  cs.all (constrHolds v)

/-- The Python range(1, n): the non-depot node indices. -/
def nonDepot (n : ℕ) : List ℕ := List.range' 1 (n - 1)

/-- Line 82: sum of e 0 i over i in range(1, n) equals salesmen. -/
def depotOutConstr (n : ℕ) (salesmen : ℤ) : LinConstr :=
  ⟨(nonDepot n).map (fun i => (1, MVar.e 0 i)), CRel.eq, salesmen⟩

/-- Line 83: sum of e i 0 over i in range(1, n) equals salesmen. -/
def depotInConstr (n : ℕ) (salesmen : ℤ) : LinConstr :=
  ⟨(nonDepot n).map (fun i => (1, MVar.e i 0)), CRel.eq, salesmen⟩

/-- Line 86: sum of e i j over j in range(n) with i ≠ j equals 1. -/
def outDegConstr (n i : ℕ) : LinConstr :=
  ⟨((List.range n).filter (fun j => i ≠ j)).map (fun j => (1, MVar.e i j)), CRel.eq, 1⟩

/-- Line 89: sum of e j i over j in range(n) with i ≠ j equals 1. -/
def inDegConstr (n i : ℕ) : LinConstr :=
  ⟨((List.range n).filter (fun j => i ≠ j)).map (fun j => (1, MVar.e j i)), CRel.eq, 1⟩

/-- Line 92: u i + (L-2) * e 0 i - e i 0 ≤ L - 1. -/
def mtz1Constr (L : ℤ) (i : ℕ) : LinConstr :=
  ⟨[(1, MVar.u i), (L - 2, MVar.e 0 i), (-1, MVar.e i 0)], CRel.le, L - 1⟩

/-- Line 95: u i + e 0 i + (2-K) * e i 0 ≥ 2. -/
def mtz2Constr (K : ℤ) (i : ℕ) : LinConstr :=
  ⟨[(1, MVar.u i), (1, MVar.e 0 i), (2 - K, MVar.e i 0)], CRel.ge, 2⟩

/-- Line 98: e 0 i + e i 0 ≤ 1. -/
def mutexConstr (i : ℕ) : LinConstr :=
  ⟨[(1, MVar.e 0 i), (1, MVar.e i 0)], CRel.le, 1⟩

/-- Line 103: u i - u j + L * e i j + (L-2) * e j i ≤ L - 1. -/
def mtzPairConstr (L : ℤ) (i j : ℕ) : LinConstr :=
  ⟨[(1, MVar.u i), (-1, MVar.u j), (L, MVar.e i j), (L - 2, MVar.e j i)], CRel.le, L - 1⟩

/-- All constraints added by mtsp_solver (lines 82-104), in program order. -/
def mtspConstraints (n : ℕ) (salesmen K L : ℤ) : List LinConstr :=
  [depotOutConstr n salesmen, depotInConstr n salesmen]
    ++ (nonDepot n).map (outDegConstr n)
    ++ (nonDepot n).map (inDegConstr n)
    ++ (nonDepot n).map (mtz1Constr L)
    ++ (nonDepot n).map (mtz2Constr K)
    ++ (nonDepot n).map mutexConstr
    ++ ((nonDepot n).map (fun i =>
          ((nonDepot n).filter (fun j => i ≠ j)).map (mtzPairConstr L i))).flatten

/-- Variable bounds declared for the model: e i j binary (line 70) with
e i i forced to 0 (line 74), u i an integer in [0, L] (line 78). -/
def varBoundsHold (n : ℕ) (L : ℤ) (v : MVar → ℤ) : Bool :=
  (List.range n).all (fun i =>
    ((List.range n).all (fun j => v (MVar.e i j) == 0 || v (MVar.e i j) == 1)) &&
    (v (MVar.e i i) == 0) &&
    (decide (0 ≤ v (MVar.u i)) && decide (v (MVar.u i) ≤ L)))

/-- An assignment returned by the solver that respects the declared
variable bounds and every constraint of the model. -/
def SatisfiesModel (n : ℕ) (salesmen K L : ℤ) (v : MVar → ℤ) : Prop :=
  varBoundsHold n L v = true ∧ modelHolds v (mtspConstraints n salesmen K L) = true

instance satisfiesModelDecidable (n : ℕ) (salesmen K L : ℤ) (v : MVar → ℤ) :
    Decidable (SatisfiesModel n salesmen K L v) :=
  inferInstanceAs (Decidable (varBoundsHold n L v = true ∧
    modelHolds v (mtspConstraints n salesmen K L) = true))

/-- The edge values reported back by the solver for an exact integer
assignment (attribute X of the e variables, line 112). -/
def solOf (v : MVar → ℤ) : ℕ → ℕ → ℚ := fun i j => ((v (MVar.e i j) : ℤ) : ℚ)

/-- Line 113: selected = [(i, j) for i in range(n) for j in range(n)
if solution[i, j] > 0.5]. -/
def selectedEdges (n : ℕ) (sol : ℕ → ℕ → ℚ) : List (ℕ × ℕ) :=
  (List.range n).flatMap (fun i =>
    ((List.range n).filter (fun j => decide (mkRat 1 2 < sol i j))).map (fun j => (i, j)))

/-- The inner for loop of lines 122-128: find the first edge whose source
is the current city and remove it, returning it and the remaining list. -/
def popFirst (sel : List (ℕ × ℕ)) (c : ℕ) : Option ((ℕ × ℕ) × List (ℕ × ℕ)) :=
  match sel with
  | [] => none
  | q :: rest =>
    if q.1 = c then some (q, rest)
    else
      match popFirst rest c with
      | none => none
      | some (f, rest2) => some (f, q :: rest2)

/-- The while loop of lines 121-131, fuel-indexed.  One unit of fuel is one
iteration of the while loop; none means the fuel ran out, i.e. the Python
loop would still be running.  When an edge from the current city is found,
the city is appended and the walk moves to the edge's target; the loop ends
when the current city is the depot again. -/
def extractLoop : ℕ → List (ℕ × ℕ) → ℕ → List ℕ → Option (List ℕ × List (ℕ × ℕ))
  | 0, _, _, _ => none
  | fuel + 1, sel, c, route =>
    match popFirst sel c with
    | some (f, rest) =>
      if f.2 = 0 then some (route ++ [c], rest)
      else extractLoop fuel rest f.2 (route ++ [c])
    | none =>
      if c = 0 then some (route, sel)
      else extractLoop fuel sel c route

/-- The outer for loop of lines 116-131: one route per salesman, threading
the shared selected-edge list. -/
def extractRoutes : ℕ → ℕ → List (ℕ × ℕ) → Option (List (List ℕ) × List (ℕ × ℕ))
  | _, 0, sel => some ([], sel)
  | fuel, k + 1, sel =>
    match extractLoop fuel sel 0 [] with
    | none => none
    | some (r, rest) =>
      match extractRoutes fuel k rest with
      | none => none
      | some (rs, rest2) => some (r :: rs, rest2)

/-- The mutable store visible to the extraction phase: the caller's cost
matrix and the locally created list of selected edges. -/
structure SolverState where
  cost : ℕ → ℕ → ℚ
  selected : List (ℕ × ℕ)

def popFirstS (st : SolverState) (c : ℕ) : Option ((ℕ × ℕ) × SolverState) :=
  match popFirst st.selected c with
  | none => none
  | some (f, rest) => some (f, { st with selected := rest })

/-- The while loop of lines 121-131 with the full store threaded through:
every update touches only the selected field. -/
def extractLoopS : ℕ → SolverState → ℕ → List ℕ → Option (List ℕ × SolverState)
  | 0, _, _, _ => none
  | fuel + 1, st, c, route =>
    match popFirstS st c with
    | some (f, st2) =>
      if f.2 = 0 then some (route ++ [c], st2)
      else extractLoopS fuel st2 f.2 (route ++ [c])
    | none =>
      if c = 0 then some (route, st)
      else extractLoopS fuel st c route

def extractRoutesS : ℕ → ℕ → SolverState → Option (List (List ℕ) × SolverState)
  | _, 0, st => some ([], st)
  | fuel, k + 1, st =>
    match extractLoopS fuel st 0 [] with
    | none => none
    | some (r, st2) =>
      match extractRoutesS fuel k st2 with
      | none => none
      | some (rs, st3) => some (r :: rs, st3)

/-- The whole observable run of mtsp_solver after the opaque optimize call:
build the selected list from the reported solution and extract the routes,
threading the cost matrix through as part of the store. -/
def mtspSolverRun (cost : ℕ → ℕ → ℚ) (n salesmen : ℕ) (sol : ℕ → ℕ → ℚ) (fuel : ℕ) :
    Option (List (List ℕ) × SolverState) :=
  extractRoutesS fuel salesmen ⟨cost, selectedEdges n sol⟩

/-- Targets j < n whose edge from i is set in the assignment. -/
def succTargets (v : MVar → ℤ) (n i : ℕ) : List ℕ :=
  (List.range n).filter (fun j => v (MVar.e i j) == 1)

/-- Sources j < n whose edge into i is set in the assignment. -/
def predTargets (v : MVar → ℤ) (n i : ℕ) : List ℕ :=
  (List.range n).filter (fun j => v (MVar.e j i) == 1)

/-- The successor of a node under the assignment (meaningful when the node
has exactly one outgoing selected edge). -/
def succOf (v : MVar → ℤ) (n i : ℕ) : ℕ := (succTargets v n i).headD 0

/-- Iterated application of a successor function. -/
def iterS (f : ℕ → ℕ) : ℕ → ℕ → ℕ
  | 0, a => a
  | t + 1, a => iterS f t (f a)

/-- The maximal chain of non-depot nodes reached from a by following f,
stopping (exclusively) at the depot; fuel-bounded. -/
def chainFrom (f : ℕ → ℕ) : ℕ → ℕ → List ℕ
  | 0, _ => []
  | fuel + 1, a => if a = 0 then [] else a :: chainFrom f fuel (f a)

/-- The walk condition the extraction loop relies on: starting from the
head of the list, the first selected edge out of each node leads to the
next node of the list, and out of the last node back to the depot. -/
def WalkOk (sel : List (ℕ × ℕ)) : List ℕ → Prop
  | [] => True
  | x :: p => (sel.filter (fun q => q.1 = x)).head? = some (x, p.headD 0) ∧ WalkOk sel p

/-- The directed edges of a closed walk through the depot whose interior
node list is w. -/
def walkEdgesOf (w : List ℕ) : List (ℕ × ℕ) := (0 :: w).zip (w ++ [0])

/-- The selected-edge set forms exactly k edge-disjoint closed walks
through the depot, jointly covering every selected edge. -/
def FormsClosedWalks (k : ℕ) (sel : List (ℕ × ℕ)) : Prop :=
  ∃ walks : List (List ℕ), walks.length = k ∧
    (∀ w ∈ walks, w ≠ [] ∧ ∀ x ∈ w, x ≠ 0) ∧
    ((walks.map walkEdgesOf).flatten).Perm sel

/-- calculate_distances (utils.py lines 89-97): entry (k, p) is the
Euclidean norm of the difference of the coordinate rows k and p. -/
noncomputable def calculate_distances (nodes : ℕ → ℕ → ℝ) (dims : ℕ) : ℕ → ℕ → ℝ :=
  fun k p => Real.sqrt (((List.range dims).map (fun d => (nodes k d - nodes p d) ^ 2)).sum)

/-- A satisfying assignment for n = 3, one salesman: the tour 0-1-2-0. -/
def vWit3 : MVar → ℤ
  | MVar.e 0 1 => 1
  | MVar.e 1 2 => 1
  | MVar.e 2 0 => 1
  | MVar.u 1 => 1
  | MVar.u 2 => 2
  | _ => 0

/-- A satisfying assignment for n = 5, two salesmen: tours 0-1-2-0 and
0-3-4-0. -/
def vWit5 : MVar → ℤ
  | MVar.e 0 1 => 1
  | MVar.e 1 2 => 1
  | MVar.e 2 0 => 1
  | MVar.e 0 3 => 1
  | MVar.e 3 4 => 1
  | MVar.e 4 0 => 1
  | MVar.u 1 => 1
  | MVar.u 2 => 2
  | MVar.u 3 => 1
  | MVar.u 4 => 2
  | _ => 0

/-- A reported solution whose diagonal entries are 0. -/
def solW2 : ℕ → ℕ → ℚ := fun i j => if i = j then 0 else 1

/-- A concrete cost matrix. -/
def costW : ℕ → ℕ → ℚ := fun i j => (i : ℚ) + (j : ℚ)

/-- A selected-edge list that is one closed walk through the depot
revisiting node 1: 0-1-2-3-1-4-0, listed so that extraction strands the
sub-loop 1-2-3-1. -/
def badSel : List (ℕ × ℕ) := [(0, 1), (1, 4), (4, 0), (1, 2), (2, 3), (3, 1)]

/-- Selected edges of two vertex-disjoint tours 0-1-2-0 and 0-3-4-0. -/
def selNine : List (ℕ × ℕ) := [(0, 1), (0, 3), (1, 2), (2, 0), (3, 4), (4, 0)]

/-- Interiors of the two tours of selNine. -/
def pathsNine : List (List ℕ) := [[1, 2], [3, 4]]

-- Sanity examples checking that the embedding evaluates.

example : selectedEdges 3 (solOf vWit3) = [(0, 1), (1, 2), (2, 0)] := by decide

example : extractRoutes 10 2 (selectedEdges 5 (solOf vWit5)) =
    some ([[0, 1, 2], [0, 3, 4]], []) := by decide

example : SatisfiesModel 3 1 2 3 vWit3 := by decide

/-- Claim C1: for every size n, bounds K and L and salesmen count, the
constraint list built by mtsp_solver is exactly the depot and degree
constraints followed by the four subtour-elimination families of the spec:
for each non-depot i, u i + (L-2) e 0 i - e i 0 ≤ L-1, then
u i + e 0 i + (2-K) e i 0 ≥ 2, then e 0 i + e i 0 ≤ 1, and for every
ordered pair of distinct non-depot nodes i, j,
u i - u j + L e i j + (L-2) e j i ≤ L-1. -/
theorem thm_model_constraint_families (n : ℕ) (salesmen K L : ℤ) :
    mtspConstraints n salesmen K L =
      [depotOutConstr n salesmen, depotInConstr n salesmen]
        ++ (nonDepot n).map (outDegConstr n)
        ++ (nonDepot n).map (inDegConstr n)
        ++ (nonDepot n).map (fun i =>
            (⟨[(1, MVar.u i), (L - 2, MVar.e 0 i), (-1, MVar.e i 0)],
              CRel.le, L - 1⟩ : LinConstr))
        ++ (nonDepot n).map (fun i =>
            (⟨[(1, MVar.u i), (1, MVar.e 0 i), (2 - K, MVar.e i 0)],
              CRel.ge, 2⟩ : LinConstr))
        ++ (nonDepot n).map (fun i =>
            (⟨[(1, MVar.e 0 i), (1, MVar.e i 0)], CRel.le, 1⟩ : LinConstr))
        ++ ((nonDepot n).map (fun i =>
            ((nonDepot n).filter (fun j => i ≠ j)).map (fun j =>
              (⟨[(1, MVar.u i), (-1, MVar.u j), (L, MVar.e i j), (L - 2, MVar.e j i)],
                CRel.le, L - 1⟩ : LinConstr)))).flatten := rfl

/-- Claim C6 (the code side of the degenerate n = 1 scenario): the model
built for a 1-by-1 cost matrix with one salesman contains the constraint
with empty left-hand side and right-hand side 1, so no assignment at all
satisfies the model: the solver reports infeasibility instead of returning
an empty route with objective 0. -/
theorem thm_n1_model_infeasible :
    (⟨[], CRel.eq, 1⟩ : LinConstr) ∈ mtspConstraints 1 1 2 1 ∧
    ∀ v : MVar → ℤ, modelHolds v (mtspConstraints 1 1 2 1) = false := by
  refine ⟨by decide, fun v => rfl⟩

/-- Claim C8: the pairwise-distance matrix is symmetric and has zero
diagonal. -/
theorem thm_distances_symm_diag (nodes : ℕ → ℕ → ℝ) (dims k p : ℕ) :
    calculate_distances nodes dims k p = calculate_distances nodes dims p k ∧
    calculate_distances nodes dims k k = 0 := by
  constructor
  · unfold calculate_distances
    congr 1
    congr 1
    apply List.map_congr_left
    intro d _
    ring
  · unfold calculate_distances
    have h : ((List.range dims).map (fun d => (nodes k d - nodes k d) ^ 2)).sum = 0 := by
      apply List.sum_eq_zero
      intro x hx
      simp only [List.mem_map] at hx
      obtain ⟨d, _, rfl⟩ := hx
      simp
    rw [h, Real.sqrt_zero]

lemma extractLoop_empty_stuck (fuel c : ℕ) (acc : List ℕ) (hc : c ≠ 0) :
    extractLoop fuel [] c acc = none := by
  induction fuel with
  | zero => rfl
  | succ f ih => simp [extractLoop, popFirst, hc, ih]

/-- Claim C5: there is a malformed selected-edge set, one not forming
exactly one closed walk through the depot, on which the extraction loop of
mtsp_solver never terminates: with the single edge (0, 1) the walk moves to
node 1 and then loops forever looking for an edge out of 1.  No amount of
fuel makes the fuel-indexed loop return. -/
theorem thm_extraction_divergent :
    (¬ FormsClosedWalks 1 [(0, 1)]) ∧
    ∀ fuel : ℕ, extractRoutes fuel 1 [(0, 1)] = none := by
  constructor
  · rintro ⟨walks, hlen, hprop, hperm⟩
    obtain ⟨w, rfl⟩ := List.length_eq_one.mp hlen
    have hlen2 := hperm.length_eq
    simp [walkEdgesOf, List.length_zip] at hlen2
    exact (hprop w (by simp)).1 hlen2
  · intro fuel
    cases fuel with
    | zero => rfl
    | succ f =>
      have h1 : extractLoop (f + 1) [(0, 1)] 0 [] = none := by
        simp [extractLoop, popFirst, extractLoop_empty_stuck]
      simp [extractRoutes, h1]

/-- Claim C7: an assignment respecting the variable bounds has value 0 on
every diagonal edge variable (upper bound forced to 0 at line 74), so the
selected-edge list of line 113 contains no self-loop. -/
theorem thm_no_self_loops_selected (n : ℕ) (sol : ℕ → ℕ → ℚ)
    (h : ∀ i, i < n → sol i i = 0) :
    ∀ i, (i, i) ∉ selectedEdges n sol := by
  intro i hmem
  simp only [selectedEdges, List.mem_flatMap, List.mem_map, List.mem_filter,
    List.mem_range] at hmem
  obtain ⟨a, _, j, ⟨hj, hlt⟩, heq⟩ := hmem
  have ha : a = i := congrArg Prod.fst heq
  have hj2 : j = i := congrArg Prod.snd heq
  rw [ha, hj2] at hlt
  rw [hj2] at hj
  rw [h i hj] at hlt
  exact absurd hlt (by decide)

/-- Witness for claim C7 at n = 2 with a concrete reported solution. -/
theorem thm_no_self_loops_selected_inst :
    (∀ i, i < 2 → solW2 i i = 0) ∧ ∀ i, (i, i) ∉ selectedEdges 2 solW2 := by
  have h : ∀ i, i < 2 → solW2 i i = 0 := by
    intro i _
    simp [solW2]
  exact ⟨h, thm_no_self_loops_selected 2 solW2 h⟩

/-- Counterexample to claim C4 as stated: a full satisfying assignment for
n = 5, two salesmen (tours 0-1-2-0 and 0-3-4-0) on which the extraction
succeeds but the sum of the route lengths is 6, not n = 5, because each
route also contains the depot. -/
theorem thm_route_length_sum_cex :
    SatisfiesModel 5 2 2 5 vWit5 ∧
    extractRoutes 10 2 (selectedEdges 5 (solOf vWit5)) =
      some ([[0, 1, 2], [0, 3, 4]], []) ∧
    (([[0, 1, 2], [0, 3, 4]] : List (List ℕ)).map List.length).sum ≠ 5 := by
  refine ⟨by decide, by decide, by decide⟩

lemma constrHolds_of_model {v : MVar → ℤ} {cs : List LinConstr}
    (h : modelHolds v cs = true) {c : LinConstr} (hc : c ∈ cs) :
    constrHolds v c = true := by
  simp only [modelHolds, List.all_eq_true] at h
  exact h c hc

lemma evalTerms_unit (v : MVar → ℤ) (l : List ℕ) (w : ℕ → MVar) :
    evalTerms v (l.map (fun j => ((1 : ℤ), w j))) = (l.map (fun j => v (w j))).sum := by
  simp [evalTerms, List.map_map, Function.comp_def]

lemma depotOut_mem (n : ℕ) (salesmen K L : ℤ) :
    depotOutConstr n salesmen ∈ mtspConstraints n salesmen K L := by
  simp [mtspConstraints]

lemma depotIn_mem (n : ℕ) (salesmen K L : ℤ) :
    depotInConstr n salesmen ∈ mtspConstraints n salesmen K L := by
  simp [mtspConstraints]

lemma outDeg_mem {n i : ℕ} (hi : i ∈ nonDepot n) (salesmen K L : ℤ) :
    outDegConstr n i ∈ mtspConstraints n salesmen K L := by
  simp only [mtspConstraints, List.mem_append]
  exact Or.inl (Or.inl (Or.inl (Or.inl (Or.inl (Or.inr
    (List.mem_map.mpr ⟨i, hi, rfl⟩))))))

lemma inDeg_mem {n i : ℕ} (hi : i ∈ nonDepot n) (salesmen K L : ℤ) :
    inDegConstr n i ∈ mtspConstraints n salesmen K L := by
  simp only [mtspConstraints, List.mem_append]
  exact Or.inl (Or.inl (Or.inl (Or.inl (Or.inr (List.mem_map.mpr ⟨i, hi, rfl⟩)))))

lemma mtzPair_mem {n i j : ℕ} (hi : i ∈ nonDepot n) (hj : j ∈ nonDepot n)
    (hij : i ≠ j) (salesmen K L : ℤ) :
    mtzPairConstr L i j ∈ mtspConstraints n salesmen K L := by
  simp only [mtspConstraints, List.mem_append]
  refine Or.inr (List.mem_flatten.mpr ⟨((nonDepot n).filter
    (fun j' => i ≠ j')).map (mtzPairConstr L i), List.mem_map.mpr ⟨i, hi, rfl⟩,
    List.mem_map.mpr ⟨j, List.mem_filter.mpr ⟨hj, by simpa using hij⟩, rfl⟩⟩)

/-- Claim C2: any assignment satisfying the model has exactly salesmen
selected edges out of the depot and into the depot, and exactly one
selected edge out of and into every non-depot node. -/
theorem thm_degree_constraints_semantics (n : ℕ) (salesmen K L : ℤ) (v : MVar → ℤ)
    (hv : SatisfiesModel n salesmen K L v) :
    ((nonDepot n).map (fun i => v (MVar.e 0 i))).sum = salesmen ∧
    ((nonDepot n).map (fun i => v (MVar.e i 0))).sum = salesmen ∧
    ∀ i ∈ nonDepot n,
      (((List.range n).filter (fun j => i ≠ j)).map (fun j => v (MVar.e i j))).sum = 1 ∧
      (((List.range n).filter (fun j => i ≠ j)).map (fun j => v (MVar.e j i))).sum = 1 := by
  have hm := hv.2
  refine ⟨?_, ?_, ?_⟩
  · have h1 := constrHolds_of_model hm (depotOut_mem n salesmen K L)
    simp only [constrHolds, depotOutConstr, decide_eq_true_eq] at h1
    rwa [evalTerms_unit] at h1
  · have h1 := constrHolds_of_model hm (depotIn_mem n salesmen K L)
    simp only [constrHolds, depotInConstr, decide_eq_true_eq] at h1
    rwa [evalTerms_unit] at h1
  · intro i hi
    constructor
    · have h1 := constrHolds_of_model hm (outDeg_mem hi salesmen K L)
      simp only [constrHolds, outDegConstr, decide_eq_true_eq] at h1
      rwa [evalTerms_unit] at h1
    · have h1 := constrHolds_of_model hm (inDeg_mem hi salesmen K L)
      simp only [constrHolds, inDegConstr, decide_eq_true_eq] at h1
      rwa [evalTerms_unit] at h1

/-- Witness for claim C2 at the n = 3 tour assignment. -/
theorem thm_degree_constraints_semantics_inst :
    SatisfiesModel 3 1 2 3 vWit3 ∧
    (((nonDepot 3).map (fun i => vWit3 (MVar.e 0 i))).sum = 1 ∧
     ((nonDepot 3).map (fun i => vWit3 (MVar.e i 0))).sum = 1 ∧
     ∀ i ∈ nonDepot 3,
       (((List.range 3).filter (fun j => i ≠ j)).map (fun j => vWit3 (MVar.e i j))).sum = 1 ∧
       (((List.range 3).filter (fun j => i ≠ j)).map (fun j => vWit3 (MVar.e j i))).sum = 1) := by
  have hs : SatisfiesModel 3 1 2 3 vWit3 := by decide
  exact ⟨hs, thm_degree_constraints_semantics 3 1 2 3 vWit3 hs⟩

lemma popFirstS_cost {st : SolverState} {c : ℕ} {f : ℕ × ℕ} {st2 : SolverState}
    (h : popFirstS st c = some (f, st2)) : st2.cost = st.cost := by
  unfold popFirstS at h
  cases hp : popFirst st.selected c with
  | none => rw [hp] at h; exact absurd h (by simp)
  | some pr =>
    rw [hp] at h
    simp only [Option.some.injEq, Prod.mk.injEq] at h
    rw [← h.2]

lemma extractLoopS_cost : ∀ (fuel : ℕ) (st : SolverState) (c : ℕ) (r : List ℕ)
    (route : List ℕ) (st2 : SolverState),
    extractLoopS fuel st c r = some (route, st2) → st2.cost = st.cost := by
  intro fuel
  induction fuel with
  | zero => intro st c r route st2 h; exact absurd h (by simp [extractLoopS])
  | succ f ih =>
    intro st c r route st2 h
    unfold extractLoopS at h
    cases hp : popFirstS st c with
    | some pr =>
      rw [hp] at h
      by_cases h2 : pr.1.2 = 0
      · simp only [h2, if_true] at h
        simp only [Option.some.injEq, Prod.mk.injEq] at h
        rw [← h.2]
        exact popFirstS_cost (by rw [hp])
      · simp only [h2, if_false] at h
        have := ih pr.2 pr.1.2 (r ++ [c]) route st2 h
        rw [this]
        exact popFirstS_cost (by rw [hp])
    | none =>
      rw [hp] at h
      by_cases h2 : c = 0
      · simp only [h2, if_true] at h
        simp only [Option.some.injEq, Prod.mk.injEq] at h
        rw [← h.2]
      · simp only [h2, if_false] at h
        exact ih st c r route st2 h

lemma extractRoutesS_cost : ∀ (k fuel : ℕ) (st : SolverState)
    (routes : List (List ℕ)) (st2 : SolverState),
    extractRoutesS fuel k st = some (routes, st2) → st2.cost = st.cost := by
  intro k
  induction k with
  | zero =>
    intro fuel st routes st2 h
    simp only [extractRoutesS, Option.some.injEq, Prod.mk.injEq] at h
    rw [← h.2]
  | succ k ih =>
    intro fuel st routes st2 h
    unfold extractRoutesS at h
    cases hl : extractLoopS fuel st 0 [] with
    | none => rw [hl] at h; exact absurd h (by simp)
    | some pr =>
      obtain ⟨r1, stM⟩ := pr
      rw [hl] at h
      dsimp only at h
      cases hr : extractRoutesS fuel k stM with
      | none => rw [hr] at h; exact absurd h (by simp)
      | some pr2 =>
        obtain ⟨rs2, stF⟩ := pr2
        rw [hr] at h
        simp only [Option.some.injEq, Prod.mk.injEq] at h
        have e1 : stF.cost = stM.cost := ih fuel stM rs2 stF hr
        have e2 : stM.cost = st.cost := extractLoopS_cost fuel st 0 [] r1 stM hl
        rw [← h.2, e1, e2]

/-- Claim C10: mtsp_solver never writes to its cost-matrix argument: on
every terminating run, the cost matrix in the final store equals the one
passed in; the extraction phase only ever rewrites the selected list of
the store. -/
theorem thm_cost_matrix_unchanged (cost : ℕ → ℕ → ℚ) (n salesmen : ℕ)
    (sol : ℕ → ℕ → ℚ) (fuel : ℕ) (routes : List (List ℕ)) (st2 : SolverState)
    (h : mtspSolverRun cost n salesmen sol fuel = some (routes, st2)) :
    st2.cost = cost := by
  exact extractRoutesS_cost salesmen fuel ⟨cost, selectedEdges n sol⟩ routes st2 h

/-- Witness for claim C10 on a terminating concrete run. -/
theorem thm_cost_matrix_unchanged_inst :
    mtspSolverRun costW 3 1 (solOf vWit3) 5 = some ([[0, 1, 2]], ⟨costW, []⟩) ∧
    (SolverState.mk costW []).cost = costW :=
  ⟨rfl, thm_cost_matrix_unchanged costW 3 1 (solOf vWit3) 5 [[0, 1, 2]] ⟨costW, []⟩ rfl⟩

/-- Counterexample to claim C9 as stated: badSel forms exactly one closed
walk through the depot (0-1-2-3-1-4-0, which revisits node 1) covering all
six selected edges, yet the extraction loop returns after consuming only
three edges, leaving (1,2), (2,3), (3,1) unconsumed in the working list. -/
theorem thm_closed_walk_leftover_cex :
    FormsClosedWalks 1 badSel ∧
    extractRoutes 10 1 badSel = some ([[0, 1, 4]], [(1, 2), (2, 3), (3, 1)]) := by
  refine ⟨⟨[[1, 2, 3, 1, 4]], by decide, by decide, by decide⟩, by decide⟩

lemma popFirst_spec : ∀ (sel : List (ℕ × ℕ)) (c y : ℕ) (tl : List (ℕ × ℕ)),
    sel.filter (fun q => q.1 = c) = (c, y) :: tl →
    ∃ rest, popFirst sel c = some ((c, y), rest) ∧
      rest.filter (fun q => q.1 = c) = tl ∧
      (∀ z, z ≠ c → rest.filter (fun q => q.1 = z) = sel.filter (fun q => q.1 = z)) ∧
      sel.Perm ((c, y) :: rest) := by
  intro sel
  induction sel with
  | nil => intro c y tl h; simp at h
  | cons q s ih =>
    intro c y tl h
    by_cases hq : q.1 = c
    · rw [List.filter_cons_of_pos (by simpa using hq)] at h
      obtain ⟨hq2, hs⟩ := List.cons.injEq .. ▸ h
      refine ⟨s, ?_, ?_, ?_, ?_⟩
      · simp [popFirst, hq, hq2]
      · rw [hs]
      · intro z hz
        rw [List.filter_cons_of_neg (by simp [hq, hz.symm])]
      · rw [← hq2]
    · rw [List.filter_cons_of_neg (by simpa using hq)] at h
      obtain ⟨rest, hpop, h1, h2, hperm⟩ := ih c y tl h
      refine ⟨q :: rest, ?_, ?_, ?_, ?_⟩
      · simp only [popFirst, hq, if_false, hpop]
      · rw [List.filter_cons_of_neg (by simpa using hq), h1]
      · intro z hz
        by_cases hqz : q.1 = z
        · rw [List.filter_cons_of_pos (by simpa using hqz),
            List.filter_cons_of_pos (by simpa using hqz), h2 z hz]
        · rw [List.filter_cons_of_neg (by simpa using hqz),
            List.filter_cons_of_neg (by simpa using hqz), h2 z hz]
      · exact (hperm.cons q).trans (List.Perm.swap (c, y) q rest)

lemma walkOk_congr : ∀ (l : List ℕ) (sel sel2 : List (ℕ × ℕ)),
    (∀ z ∈ l, sel2.filter (fun q => q.1 = z) = sel.filter (fun q => q.1 = z)) →
    WalkOk sel l → WalkOk sel2 l := by
  intro l
  induction l with
  | nil => intro sel sel2 _ _; trivial
  | cons x p ih =>
    intro sel sel2 hf hw
    exact ⟨by rw [hf x (by simp)]; exact hw.1,
      ih sel sel2 (fun z hz => hf z (by simp [hz])) hw.2⟩

lemma pairs_to_walkOk : ∀ (p : List ℕ) (sel : List (ℕ × ℕ)),
    (∀ pr ∈ p.zip (p.drop 1 ++ [0]), sel.filter (fun q => q.1 = pr.1) = [pr]) →
    WalkOk sel p := by
  intro p
  induction p with
  | nil => intro sel _; trivial
  | cons x p' ih =>
    intro sel h
    cases p' with
    | nil =>
      refine ⟨?_, trivial⟩
      have h0 := h (x, 0) (by simp)
      rw [h0]
      rfl
    | cons z t =>
      refine ⟨?_, ?_⟩
      · have h0 := h (x, z) (by simp [List.zip_cons_cons])
        rw [h0]
        rfl
      · apply ih sel
        intro pr hpr
        apply h pr
        simp only [List.zip_cons_cons, List.drop_succ_cons, List.drop_zero, List.mem_cons]
        right
        simpa using hpr

lemma extractLoop_walk : ∀ (p : List ℕ) (c : ℕ) (sel : List (ℕ × ℕ))
    (acc : List ℕ) (fuel : ℕ),
    WalkOk sel (c :: p) → (c :: p).Nodup → (∀ x ∈ p, x ≠ 0) →
    (c :: p).length ≤ fuel →
    ∃ rest, extractLoop fuel sel c acc = some (acc ++ c :: p, rest) ∧
      (∀ z ∈ c :: p,
        rest.filter (fun q => q.1 = z) = (sel.filter (fun q => q.1 = z)).drop 1) ∧
      (∀ z, z ∉ c :: p → rest.filter (fun q => q.1 = z) = sel.filter (fun q => q.1 = z)) ∧
      sel.Perm ((c :: p).zip (p ++ [0]) ++ rest) := by
  intro p
  induction p with
  | nil =>
    intro c sel acc fuel hw hnd hnz hfuel
    have hhead : (sel.filter (fun q => q.1 = c)).head? = some (c, 0) := hw.1
    cases hf : sel.filter (fun q => q.1 = c) with
    | nil => rw [hf] at hhead; exact absurd hhead (by simp)
    | cons q tl =>
      rw [hf] at hhead
      have hq : q = (c, 0) := by simpa using hhead
      subst hq
      obtain ⟨rest, hpop, h1, h2, hperm⟩ := popFirst_spec sel c 0 tl hf
      cases fuel with
      | zero => simp at hfuel
      | succ f =>
        refine ⟨rest, ?_, ?_, ?_, ?_⟩
        · simp [extractLoop, hpop]
        · intro z hz
          simp only [List.mem_singleton] at hz
          subst hz
          rw [h1, hf]
          rfl
        · intro z hz
          simp only [List.mem_singleton] at hz
          exact h2 z hz
        · simpa using hperm
  | cons y p' ih =>
    intro c sel acc fuel hw hnd hnz hfuel
    have hhead : (sel.filter (fun q => q.1 = c)).head? = some (c, y) := hw.1
    have hw' : WalkOk sel (y :: p') := hw.2
    have hy0 : y ≠ 0 := hnz y (by simp)
    cases hf : sel.filter (fun q => q.1 = c) with
    | nil => rw [hf] at hhead; exact absurd hhead (by simp)
    | cons q tl =>
      rw [hf] at hhead
      have hq : q = (c, y) := by simpa using hhead
      subst hq
      obtain ⟨rest1, hpop, hc1, hc2, hperm1⟩ := popFirst_spec sel c y tl hf
      cases fuel with
      | zero => simp at hfuel
      | succ f =>
        have hcnotin : c ∉ y :: p' := (List.nodup_cons.mp hnd).1
        have hwr : WalkOk rest1 (y :: p') := by
          apply walkOk_congr (y :: p') sel rest1
          · intro z hz
            exact hc2 z (fun hzc => hcnotin (hzc ▸ hz))
          · exact hw'
        have hnd' : (y :: p').Nodup := (List.nodup_cons.mp hnd).2
        have hnz' : ∀ x ∈ p', x ≠ 0 := fun x hx => hnz x (by simp [hx])
        have hfuel' : (y :: p').length ≤ f := by
          simp only [List.length_cons] at hfuel ⊢
          omega
        obtain ⟨rest, heq, hin, hout, hperm⟩ := ih y rest1 (acc ++ [c]) f hwr hnd' hnz' hfuel'
        refine ⟨rest, ?_, ?_, ?_, ?_⟩
        · have : extractLoop (f + 1) sel c acc = extractLoop f rest1 y (acc ++ [c]) := by
            simp [extractLoop, hpop, hy0]
          rw [this, heq]
          simp
        · intro z hz
          rcases List.mem_cons.mp hz with hzc | hzin
          · subst hzc
            rw [hout z hcnotin, hc1, hf]
            rfl
          · rw [hin z hzin, hc2 z (fun hzc => hcnotin (hzc ▸ hzin))]
        · intro z hz
          have hz1 : z ≠ c := fun h => hz (h ▸ List.mem_cons_self c _)
          have hz2 : z ∉ y :: p' := fun h => hz (List.mem_cons_of_mem c h)
          rw [hout z hz2, hc2 z hz1]
        · have step1 : sel.Perm ((c, y) :: rest1) := hperm1
          have step2 : ((c, y) :: rest1).Perm
              ((c, y) :: ((y :: p').zip (p' ++ [0]) ++ rest)) := hperm.cons (c, y)
          have : ((c :: y :: p').zip ((y :: p') ++ [0]) ++ rest) =
              (c, y) :: ((y :: p').zip (p' ++ [0]) ++ rest) := by
            simp [List.zip_cons_cons]
          rw [this]
          exact step1.trans step2

lemma mem_zip_fst : ∀ (p : List ℕ) (x : ℕ), x ∈ p →
    ∃ pr ∈ p.zip (p.drop 1 ++ [0]), pr.1 = x := by
  intro p x hx
  have hlen : p.length ≤ (p.drop 1 ++ [0]).length := by
    simp only [List.length_append, List.length_drop, List.length_singleton]
    omega
  have hmap : (p.zip (p.drop 1 ++ [0])).map Prod.fst = p := List.map_fst_zip _ _ hlen
  rw [← hmap] at hx
  obtain ⟨pr, hpr, hfst⟩ := List.mem_map.mp hx
  exact ⟨pr, hpr, hfst⟩

lemma extract_core : ∀ (paths : List (List ℕ)) (sel : List (ℕ × ℕ)) (fuel : ℕ),
    sel.filter (fun q => q.1 = 0) = paths.map (fun p => (0, p.headD 0)) →
    (∀ p ∈ paths, p ≠ [] ∧ ∀ x ∈ p, x ≠ 0) →
    paths.flatten.Nodup →
    (∀ p ∈ paths, ∀ pr ∈ p.zip (p.drop 1 ++ [0]),
        sel.filter (fun q => q.1 = pr.1) = [pr]) →
    (∀ q ∈ sel, q.1 = 0 ∨ q.1 ∈ paths.flatten) →
    paths.flatten.length + 1 ≤ fuel →
    extractRoutes fuel paths.length sel = some (paths.map (fun p => 0 :: p), []) ∧
    sel.Perm ((paths.map (fun p => (0 :: p).zip (p ++ [0]))).flatten) := by
  intro paths
  induction paths with
  | nil =>
    intro sel fuel h1 h2 h3 h4 h5 hfuel
    have hsel : sel = [] := by
      apply List.eq_nil_iff_forall_not_mem.mpr
      intro q hq
      have h0 : q.1 = 0 := by
        rcases h5 q hq with h | h
        · exact h
        · simp at h
      have hmem : q ∈ sel.filter (fun q => q.1 = 0) :=
        List.mem_filter.mpr ⟨hq, by simp [h0]⟩
      rw [h1] at hmem
      simp at hmem
    subst hsel
    exact ⟨rfl, by simp⟩
  | cons p ps ih =>
    intro sel fuel h1 h2 h3 h4 h5 hfuel
    obtain ⟨hpne, hpnz⟩ := h2 p (List.mem_cons_self p ps)
    rw [List.flatten_cons] at h3 h5 hfuel
    have hnodup_p : p.Nodup := (List.nodup_append.mp h3).1
    have hnodup_ps : ps.flatten.Nodup := (List.nodup_append.mp h3).2.1
    have hdisj : p.Disjoint ps.flatten := (List.nodup_append.mp h3).2.2
    have hwalk : WalkOk sel (0 :: p) := by
      refine ⟨?_, pairs_to_walkOk p sel (h4 p (List.mem_cons_self p ps))⟩
      rw [h1]
      simp
    have h0notin : (0 : ℕ) ∉ p := fun h => hpnz 0 h rfl
    have hnd : (0 :: p).Nodup := List.nodup_cons.mpr ⟨h0notin, hnodup_p⟩
    have hfuel1 : (0 :: p).length ≤ fuel := by
      simp only [List.length_cons, List.length_append] at hfuel ⊢
      omega
    obtain ⟨rest, heq, hin, hout, hperm⟩ :=
      extractLoop_walk p 0 sel [] fuel hwalk hnd hpnz hfuel1
    have heq' : extractLoop fuel sel 0 [] = some (0 :: p, rest) := by simpa using heq
    have h1' : rest.filter (fun q => q.1 = 0) = ps.map (fun p => (0, p.headD 0)) := by
      rw [hin 0 (List.mem_cons_self 0 p), h1]
      simp
    have h2' : ∀ p' ∈ ps, p' ≠ [] ∧ ∀ x ∈ p', x ≠ 0 :=
      fun p' hp' => h2 p' (List.mem_cons_of_mem p hp')
    have h4' : ∀ p' ∈ ps, ∀ pr ∈ p'.zip (p'.drop 1 ++ [0]),
        rest.filter (fun q => q.1 = pr.1) = [pr] := by
      intro p' hp' pr hpr
      obtain ⟨a, b⟩ := pr
      have hab := List.of_mem_zip hpr
      have haflat : a ∈ ps.flatten := List.mem_flatten.mpr ⟨p', hp', hab.1⟩
      have ha0 : a ≠ 0 := (h2' p' hp').2 a hab.1
      have hanotp : a ∉ p := fun h => hdisj h haflat
      have hanot : a ∉ 0 :: p := by
        intro h
        rcases List.mem_cons.mp h with h | h
        · exact ha0 h
        · exact hanotp h
      rw [hout a hanot]
      exact h4 p' (List.mem_cons_of_mem p hp') (a, b) hpr
    have h5' : ∀ q ∈ rest, q.1 = 0 ∨ q.1 ∈ ps.flatten := by
      intro q hq
      have hqsel : q ∈ sel := hperm.symm.subset (List.mem_append_right _ hq)
      rcases h5 q hqsel with h | h
      · exact Or.inl h
      · rcases List.mem_append.mp h with hqp | hqps
        · exfalso
          obtain ⟨pr, hpr, hfst⟩ := mem_zip_fst p q.1 hqp
          have hfsel : sel.filter (fun q' => q'.1 = q.1) = [pr] := by
            rw [← hfst]
            exact h4 p (List.mem_cons_self p ps) pr hpr
          have hfrest : rest.filter (fun q' => q'.1 = q.1) = [] := by
            rw [hin q.1 (List.mem_cons_of_mem 0 hqp), hfsel]
            rfl
          have : q ∈ rest.filter (fun q' => q'.1 = q.1) :=
            List.mem_filter.mpr ⟨hq, by simp⟩
          rw [hfrest] at this
          simp at this
        · exact Or.inr hqps
    have hfuel' : ps.flatten.length + 1 ≤ fuel := by
      simp only [List.length_append] at hfuel
      omega
    obtain ⟨hroutes, hperm2⟩ := ih rest fuel h1' h2' hnodup_ps h4' h5' hfuel'
    constructor
    · show extractRoutes fuel (ps.length + 1) sel = _
      unfold extractRoutes
      rw [heq']
      dsimp only
      rw [hroutes]
      rfl
    · have step : sel.Perm (((0 :: p).zip (p ++ [0])) ++
          ((ps.map (fun p => (0 :: p).zip (p ++ [0]))).flatten)) :=
        hperm.trans (hperm2.append_left _)
      simpa using step

lemma sat_bounds {n : ℕ} {salesmen K L : ℤ} {v : MVar → ℤ}
    (h : SatisfiesModel n salesmen K L v) :
    (∀ i j, i < n → j < n → v (MVar.e i j) = 0 ∨ v (MVar.e i j) = 1) ∧
    (∀ i, i < n → v (MVar.e i i) = 0) ∧
    (∀ i, i < n → 0 ≤ v (MVar.u i) ∧ v (MVar.u i) ≤ L) := by
  have hb := h.1
  simp only [varBoundsHold, List.all_eq_true, List.mem_range, Bool.and_eq_true,
    Bool.or_eq_true, beq_iff_eq, decide_eq_true_eq] at hb
  exact ⟨fun i j hi hj => (hb i hi).1.1 j hj, fun i hi => (hb i hi).1.2,
    fun i hi => (hb i hi).2⟩

lemma sum_01_eq_count : ∀ (l : List ℕ) (f : ℕ → ℤ),
    (∀ x ∈ l, f x = 0 ∨ f x = 1) →
    (l.map f).sum = ((l.filter (fun x => f x == 1)).length : ℤ) := by
  intro l f
  induction l with
  | nil => intro _; simp
  | cons a t ih =>
    intro h
    rcases h a (by simp) with h0 | h1
    · rw [List.map_cons, List.sum_cons, h0,
        List.filter_cons_of_neg (by simp [h0]), ih (fun x hx => h x (by simp [hx]))]
      ring
    · rw [List.map_cons, List.sum_cons, h1,
        List.filter_cons_of_pos (by simp [h1]), List.length_cons,
        ih (fun x hx => h x (by simp [hx]))]
      push_cast
      ring

lemma mem_nonDepot {n i : ℕ} : i ∈ nonDepot n ↔ 1 ≤ i ∧ i < n := by
  simp only [nonDepot, List.mem_range'_1]
  omega

lemma range_eq_cons_nonDepot {n : ℕ} (hn : 1 ≤ n) : List.range n = 0 :: nonDepot n := by
  cases n with
  | zero => omega
  | succ m =>
    rw [List.range_eq_range', List.range'_succ]
    rfl

lemma headD_of_headQ {l : List ℕ} {a : ℕ} (h : l.head? = some a) : l.headD 0 = a := by
  cases l with
  | nil => simp at h
  | cons b t => simpa using h

lemma filter_beq_one_sub {n i : ℕ} (f : ℕ → ℤ) (hfi : f i ≠ 1) :
    ((List.range n).filter (fun j => i ≠ j)).filter (fun j => f j == 1) =
    (List.range n).filter (fun j => f j == 1) := by
  rw [List.filter_filter]
  apply List.filter_congr
  intro j _
  by_cases hj : f j = 1
  · have hij : i ≠ j := fun hh => hfi (hh ▸ hj)
    simp [hj, hij]
  · simp [hj]

lemma outdeg_count {n : ℕ} {salesmen K L : ℤ} {v : MVar → ℤ}
    (h : SatisfiesModel n salesmen K L v) {i : ℕ} (hi : i ∈ nonDepot n) :
    (succTargets v n i).length = 1 := by
  have hin : i < n := (mem_nonDepot.mp hi).2
  have h1 := constrHolds_of_model h.2 (outDeg_mem hi salesmen K L)
  simp only [constrHolds, outDegConstr, decide_eq_true_eq] at h1
  rw [evalTerms_unit] at h1
  rw [sum_01_eq_count _ _ (fun x hx => (sat_bounds h).1 i x hin
    (List.mem_range.mp (List.mem_filter.mp hx).1))] at h1
  rw [filter_beq_one_sub (fun j => v (MVar.e i j))
    (by show v (MVar.e i i) ≠ 1; rw [(sat_bounds h).2.1 i hin]; omega)] at h1
  have : ((succTargets v n i).length : ℤ) = 1 := h1
  exact_mod_cast this

lemma indeg_count {n : ℕ} {salesmen K L : ℤ} {v : MVar → ℤ}
    (h : SatisfiesModel n salesmen K L v) {i : ℕ} (hi : i ∈ nonDepot n) :
    (predTargets v n i).length = 1 := by
  have hin : i < n := (mem_nonDepot.mp hi).2
  have h1 := constrHolds_of_model h.2 (inDeg_mem hi salesmen K L)
  simp only [constrHolds, inDegConstr, decide_eq_true_eq] at h1
  rw [evalTerms_unit] at h1
  rw [sum_01_eq_count _ _ (fun x hx => (sat_bounds h).1 x i
    (List.mem_range.mp (List.mem_filter.mp hx).1) hin)] at h1
  rw [filter_beq_one_sub (fun j => v (MVar.e j i))
    (by show v (MVar.e i i) ≠ 1; rw [(sat_bounds h).2.1 i hin]; omega)] at h1
  have : ((predTargets v n i).length : ℤ) = 1 := h1
  exact_mod_cast this

lemma depot_count {n : ℕ} {salesmen K L : ℤ} {v : MVar → ℤ}
    (h : SatisfiesModel n salesmen K L v) (hn : 1 ≤ n) {k : ℕ}
    (hk : salesmen = (k : ℤ)) :
    (succTargets v n 0).length = k := by
  have h0n : 0 < n := hn
  have h1 := constrHolds_of_model h.2 (depotOut_mem n salesmen K L)
  simp only [constrHolds, depotOutConstr, decide_eq_true_eq] at h1
  rw [evalTerms_unit] at h1
  rw [sum_01_eq_count _ _ (fun x hx => (sat_bounds h).1 0 x h0n
    (mem_nonDepot.mp hx).2)] at h1
  have hfilter : succTargets v n 0 =
      (nonDepot n).filter (fun j => v (MVar.e 0 j) == 1) := by
    unfold succTargets
    rw [range_eq_cons_nonDepot hn,
      List.filter_cons_of_neg (by simp [(sat_bounds h).2.1 0 h0n])]
  rw [← hfilter] at h1
  rw [hk] at h1
  exact_mod_cast h1

lemma succ_unique {n : ℕ} {salesmen K L : ℤ} {v : MVar → ℤ}
    (h : SatisfiesModel n salesmen K L v) {i : ℕ} (hi : i ∈ nonDepot n) :
    succTargets v n i = [succOf v n i] ∧ v (MVar.e i (succOf v n i)) = 1 ∧
    succOf v n i < n ∧ succOf v n i ≠ i := by
  obtain ⟨a, ha⟩ := List.length_eq_one.mp (outdeg_count h hi)
  have hsucc : succOf v n i = a := by rw [succOf, ha]; rfl
  have hmem : a ∈ succTargets v n i := by rw [ha]; simp
  have hconj := List.mem_filter.mp hmem
  have han : a < n := List.mem_range.mp hconj.1
  have hva : v (MVar.e i a) = 1 := by simpa using hconj.2
  have hin : i < n := (mem_nonDepot.mp hi).2
  have hne : a ≠ i := by
    intro hai
    rw [hai, (sat_bounds h).2.1 i hin] at hva
    exact absurd hva (by omega)
  rw [hsucc]
  exact ⟨ha, hva, han, hne⟩

lemma pred_unique {n : ℕ} {salesmen K L : ℤ} {v : MVar → ℤ}
    (h : SatisfiesModel n salesmen K L v) {j : ℕ} (hj : j ∈ nonDepot n)
    {a b : ℕ} (ha : a < n) (hb : b < n)
    (hva : v (MVar.e a j) = 1) (hvb : v (MVar.e b j) = 1) : a = b := by
  obtain ⟨w, hw⟩ := List.length_eq_one.mp (indeg_count h hj)
  have hma : a ∈ predTargets v n j :=
    List.mem_filter.mpr ⟨List.mem_range.mpr ha, by simp [hva]⟩
  have hmb : b ∈ predTargets v n j :=
    List.mem_filter.mpr ⟨List.mem_range.mpr hb, by simp [hvb]⟩
  rw [hw] at hma hmb
  simp only [List.mem_singleton] at hma hmb
  rw [hma, hmb]

lemma u_step {n : ℕ} {salesmen K L : ℤ} {v : MVar → ℤ}
    (h : SatisfiesModel n salesmen K L v) (hL : 2 ≤ L) {i j : ℕ}
    (hi : i ∈ nonDepot n) (hj : j ∈ nonDepot n) (hij : i ≠ j)
    (hv : v (MVar.e i j) = 1) : v (MVar.u i) + 1 ≤ v (MVar.u j) := by
  have hc := constrHolds_of_model h.2 (mtzPair_mem hi hj hij salesmen K L)
  simp only [constrHolds, mtzPairConstr, evalTerms, List.map_cons, List.map_nil,
    List.sum_cons, List.sum_nil, decide_eq_true_eq] at hc
  rw [hv] at hc
  rcases (sat_bounds h).1 j i (mem_nonDepot.mp hj).2 (mem_nonDepot.mp hi).2 with h0 | h1
  · rw [h0] at hc; linarith
  · rw [h1] at hc; linarith

lemma filter_flatMap_pairs (l : List ℕ) (g : ℕ → List (ℕ × ℕ)) (p : ℕ × ℕ → Bool) :
    (l.flatMap g).filter p = l.flatMap (fun a => (g a).filter p) := by
  induction l with
  | nil => rfl
  | cons a t ih => simp only [List.flatMap_cons, List.filter_append, ih]

lemma flatMap_nil_of (g : ℕ → List (ℕ × ℕ)) : ∀ (l : List ℕ),
    (∀ x ∈ l, g x = []) → l.flatMap g = [] := by
  intro l
  induction l with
  | nil => intro _; rfl
  | cons a t ih =>
    intro hg
    rw [List.flatMap_cons, hg a (by simp), List.nil_append]
    exact ih (fun x hx => hg x (by simp [hx]))

lemma flatMap_single (z : ℕ) (g : ℕ → List (ℕ × ℕ)) : ∀ (l : List ℕ),
    l.Nodup → z ∈ l → (∀ x ∈ l, x ≠ z → g x = []) → l.flatMap g = g z := by
  intro l
  induction l with
  | nil => intro _ hz _; simp at hz
  | cons a t ih =>
    intro hnd hz hg
    by_cases haz : a = z
    · subst haz
      rw [List.flatMap_cons]
      have ht : t.flatMap g = [] := flatMap_nil_of g t (fun x hx =>
        hg x (by simp [hx]) (fun hxz => (List.nodup_cons.mp hnd).1 (hxz ▸ hx)))
      rw [ht, List.append_nil]
    · rw [List.flatMap_cons, hg a (by simp) haz, List.nil_append]
      refine ih (List.nodup_cons.mp hnd).2 ?_
        (fun x hx hxz => hg x (by simp [hx]) hxz)
      rcases List.mem_cons.mp hz with hh | hh
      · exact absurd hh.symm haz
      · exact hh

lemma half_lt_01 {x : ℤ} (hx : x = 0 ∨ x = 1) :
    decide (mkRat 1 2 < ((x : ℤ) : ℚ)) = (x == 1) := by
  rcases hx with rfl | rfl <;> decide

lemma filter_selectedEdges {n : ℕ} {salesmen K L : ℤ} {v : MVar → ℤ}
    (h : SatisfiesModel n salesmen K L v) {z : ℕ} (hz : z < n) :
    (selectedEdges n (solOf v)).filter (fun q => q.1 = z) =
    (succTargets v n z).map (fun j => (z, j)) := by
  unfold selectedEdges
  rw [filter_flatMap_pairs]
  rw [flatMap_single z _ (List.range n) (List.nodup_range n)
    (List.mem_range.mpr hz) ?_]
  · have hinner : (List.range n).filter (fun j => decide (mkRat 1 2 < solOf v z j)) =
        succTargets v n z := by
      unfold succTargets
      apply List.filter_congr
      intro j hj
      have hb := (sat_bounds h).1 z j hz (List.mem_range.mp hj)
      show decide (mkRat 1 2 < ((v (MVar.e z j) : ℤ) : ℚ)) = (v (MVar.e z j) == 1)
      exact half_lt_01 hb
    rw [← hinner]
    simp [List.filter_map, Function.comp_def]
  · intro x _ hxz
    simp [List.filter_map, Function.comp_def, hxz]

lemma mem_selectedEdges {n : ℕ} {salesmen K L : ℤ} {v : MVar → ℤ}
    (h : SatisfiesModel n salesmen K L v) {a b : ℕ}
    (hq : (a, b) ∈ selectedEdges n (solOf v)) :
    a < n ∧ b < n ∧ v (MVar.e a b) = 1 := by
  unfold selectedEdges at hq
  simp only [List.mem_flatMap, List.mem_map, List.mem_filter, List.mem_range] at hq
  obtain ⟨i, hi, j, ⟨hj, hlt⟩, heq⟩ := hq
  have hia : i = a := congrArg Prod.fst heq
  have hjb : j = b := congrArg Prod.snd heq
  subst hia hjb
  refine ⟨hi, hj, ?_⟩
  rcases (sat_bounds h).1 i j hi hj with h0 | h1
  · exfalso
    have : decide (mkRat 1 2 < ((v (MVar.e i j) : ℤ) : ℚ)) = true := hlt
    rw [h0] at this
    exact absurd this (by decide)
  · exact h1

lemma iterS_shift (f : ℕ → ℕ) : ∀ (t a : ℕ), iterS f (t + 1) a = f (iterS f t a) := by
  intro t
  induction t with
  | zero => intro a; rfl
  | succ s ih => intro a; exact ih (f a)

lemma chainFrom_depot (f : ℕ → ℕ) (fuel : ℕ) : chainFrom f fuel 0 = [] := by
  cases fuel with
  | zero => rfl
  | succ m => simp [chainFrom]

lemma chain_spec (n : ℕ) (L : ℤ) (v : MVar → ℤ) (σ : ℕ → ℕ)
    (Hs : ∀ x, 1 ≤ x → x < n → σ x < n ∧ σ x ≠ x)
    (Hu : ∀ x, 1 ≤ x → x < n → 1 ≤ σ x → v (MVar.u x) + 1 ≤ v (MVar.u (σ x)))
    (Hb : ∀ x, x < n → 0 ≤ v (MVar.u x) ∧ v (MVar.u x) ≤ L) :
    ∀ (fuel : ℕ) (a : ℕ), 1 ≤ a → a < n → (L - v (MVar.u a)).toNat < fuel →
    (chainFrom σ fuel a).head? = some a ∧
    (∀ x ∈ chainFrom σ fuel a, 1 ≤ x ∧ x < n ∧ v (MVar.u a) ≤ v (MVar.u x)) ∧
    List.Pairwise (fun x y => v (MVar.u x) < v (MVar.u y)) (chainFrom σ fuel a) ∧
    (∀ pr ∈ (chainFrom σ fuel a).zip ((chainFrom σ fuel a).drop 1 ++ [0]),
      pr.2 = σ pr.1) ∧
    (∀ x, x ∈ chainFrom σ fuel a ↔
      ∃ t, iterS σ t a = x ∧ ∀ s, s ≤ t → 1 ≤ iterS σ s a) := by
  intro fuel
  induction fuel with
  | zero => intro a _ _ hf; omega
  | succ f ih =>
    intro a ha1 han hf
    have ha0 : a ≠ 0 := by omega
    have hchain : chainFrom σ (f + 1) a = a :: chainFrom σ f (σ a) := by
      simp [chainFrom, ha0]
    by_cases hσ : σ a = 0
    · have hrest : chainFrom σ f (σ a) = [] := by rw [hσ]; exact chainFrom_depot σ f
      rw [hchain, hrest]
      refine ⟨rfl, ?_, ?_, ?_, ?_⟩
      · intro x hx
        simp only [List.mem_singleton] at hx
        subst hx
        exact ⟨ha1, han, le_refl _⟩
      · simp
      · intro pr hpr
        simp only [List.drop_one, List.tail_cons, List.nil_append,
          List.zip_cons_cons, List.zip_nil_left, List.mem_singleton] at hpr
        subst hpr
        exact hσ.symm
      · intro x
        constructor
        · intro hx
          simp only [List.mem_singleton] at hx
          refine ⟨0, hx.symm, ?_⟩
          intro s hs
          have hs0 : s = 0 := by omega
          subst hs0
          exact ha1
        · rintro ⟨t, ht, hall⟩
          cases t with
          | zero =>
            simp only [List.mem_singleton]
            exact ht.symm
          | succ s =>
            exfalso
            have h1 := hall 1 (by omega)
            have h2 : iterS σ 1 a = σ a := rfl
            rw [h2, hσ] at h1
            omega
    · have hσ1 : 1 ≤ σ a := Nat.one_le_iff_ne_zero.mpr hσ
      have hσn : σ a < n := (Hs a ha1 han).1
      have hustep : v (MVar.u a) + 1 ≤ v (MVar.u (σ a)) := Hu a ha1 han hσ1
      obtain ⟨hba0, hbaL⟩ := Hb a han
      obtain ⟨hbs0, hbsL⟩ := Hb (σ a) hσn
      have hf' : (L - v (MVar.u (σ a))).toNat < f := by omega
      obtain ⟨ihh, ihm, ihp, ihpr, ihiff⟩ := ih (σ a) hσ1 hσn hf'
      obtain ⟨b, t', hbt⟩ : ∃ b t', chainFrom σ f (σ a) = b :: t' := by
        cases hc : chainFrom σ f (σ a) with
        | nil => rw [hc] at ihh; exact absurd ihh (by simp)
        | cons b t' => exact ⟨b, t', rfl⟩
      have hb_eq : b = σ a := by rw [hbt] at ihh; simpa using ihh
      rw [hchain]
      refine ⟨rfl, ?_, ?_, ?_, ?_⟩
      · intro x hx
        rcases List.mem_cons.mp hx with hxa | hxp
        · subst hxa; exact ⟨ha1, han, le_refl _⟩
        · obtain ⟨h1, h2, h3⟩ := ihm x hxp
          exact ⟨h1, h2, by omega⟩
      · rw [List.pairwise_cons]
        refine ⟨?_, ihp⟩
        intro x hx
        have h3 := (ihm x hx).2.2
        omega
      · intro pr hpr
        rw [hbt] at hpr
        have hz : (a :: b :: t').zip (((a :: b :: t').drop 1) ++ [0]) =
            (a, b) :: ((b :: t').zip (t' ++ [0])) := rfl
        rw [hz] at hpr
        rcases List.mem_cons.mp hpr with hh | hh
        · subst hh
          show b = σ a
          exact hb_eq
        · refine ihpr pr ?_
          rw [hbt]
          exact hh
      · intro x
        constructor
        · intro hx
          rcases List.mem_cons.mp hx with hxa | hxp
          · refine ⟨0, hxa.symm, ?_⟩
            intro s hs
            have hs0 : s = 0 := by omega
            subst hs0
            exact ha1
          · obtain ⟨t, ht, hall⟩ := (ihiff x).mp hxp
            refine ⟨t + 1, ht, ?_⟩
            intro s hs
            cases s with
            | zero => exact ha1
            | succ s' => exact hall s' (by omega)
        · rintro ⟨t, ht, hall⟩
          cases t with
          | zero => exact List.mem_cons.mpr (Or.inl ht.symm)
          | succ t' =>
            apply List.mem_cons_of_mem
            apply (ihiff x).mpr
            exact ⟨t', ht, fun s hs => hall (s + 1) (by omega)⟩

lemma iter_bounds (n : ℕ) (σ : ℕ → ℕ)
    (Hs : ∀ x, 1 ≤ x → x < n → σ x < n) :
    ∀ (t a : ℕ), 1 ≤ a → a < n → (∀ r, r ≤ t → 1 ≤ iterS σ r a) →
    1 ≤ iterS σ t a ∧ iterS σ t a < n := by
  intro t
  induction t with
  | zero => intro a ha1 han _; exact ⟨ha1, han⟩
  | succ s ih =>
    intro a ha1 han hall
    have hσ1 : 1 ≤ σ a := hall 1 (by omega)
    have hσn : σ a < n := Hs a ha1 han
    exact ih (σ a) hσ1 hσn (fun r hr => hall (r + 1) (by omega))

lemma iter_no_depot_entry (n : ℕ) (v : MVar → ℤ) (σ : ℕ → ℕ)
    (Hs : ∀ x, 1 ≤ x → x < n → σ x < n ∧ v (MVar.e x (σ x)) = 1)
    (Hpred : ∀ j, 1 ≤ j → j < n → ∀ a b, a < n → b < n →
      v (MVar.e a j) = 1 → v (MVar.e b j) = 1 → a = b) :
    ∀ (s b a : ℕ), 1 ≤ b → b < n → (∀ r, r ≤ s + 1 → 1 ≤ iterS σ r b) →
    iterS σ (s + 1) b = a → 1 ≤ a → a < n → v (MVar.e 0 a) = 1 → 0 < n → False := by
  intro s b a hb1 hbn hall heq ha1 han hva h0n
  have hw := iter_bounds n σ (fun x h1 h2 => (Hs x h1 h2).1) s b hb1 hbn
    (fun r hr => hall r (by omega))
  have hσw : σ (iterS σ s b) = a := by rw [← heq, iterS_shift]
  have hvw : v (MVar.e (iterS σ s b) (σ (iterS σ s b))) = 1 :=
    (Hs (iterS σ s b) hw.1 hw.2).2
  rw [hσw] at hvw
  have h0 : iterS σ s b = 0 := Hpred a ha1 han (iterS σ s b) 0 hw.2 h0n hvw hva
  omega

lemma iter_meet (n : ℕ) (v : MVar → ℤ) (σ : ℕ → ℕ)
    (Hs : ∀ x, 1 ≤ x → x < n → σ x < n ∧ v (MVar.e x (σ x)) = 1)
    (Hpred : ∀ j, 1 ≤ j → j < n → ∀ a b, a < n → b < n →
      v (MVar.e a j) = 1 → v (MVar.e b j) = 1 → a = b)
    (h0n : 0 < n) :
    ∀ (t s a b : ℕ), 1 ≤ a → a < n → v (MVar.e 0 a) = 1 →
    1 ≤ b → b < n → v (MVar.e 0 b) = 1 →
    (∀ r, r ≤ t → 1 ≤ iterS σ r a) → (∀ r, r ≤ s → 1 ≤ iterS σ r b) →
    iterS σ t a = iterS σ s b → a = b := by
  intro t
  induction t with
  | zero =>
    intro s a b ha1 han hva hb1 hbn hvb _ hallb heq
    cases s with
    | zero => exact heq
    | succ s' =>
      exact absurd heq.symm (fun hh => iter_no_depot_entry n v σ Hs Hpred s' b a
        hb1 hbn hallb hh ha1 han hva h0n)
  | succ t' ih =>
    intro s a b ha1 han hva hb1 hbn hvb halla hallb heq
    cases s with
    | zero =>
      exact absurd heq (fun hh => iter_no_depot_entry n v σ Hs Hpred t' a b
        ha1 han halla hh hb1 hbn hvb h0n)
    | succ s' =>
      have hwa := iter_bounds n σ (fun x h1 h2 => (Hs x h1 h2).1) t' a ha1 han
        (fun r hr => halla r (by omega))
      have hwb := iter_bounds n σ (fun x h1 h2 => (Hs x h1 h2).1) s' b hb1 hbn
        (fun r hr => hallb r (by omega))
      have hc1 : 1 ≤ iterS σ (t' + 1) a := halla (t' + 1) (le_refl _)
      have hcn : iterS σ (t' + 1) a < n :=
        (iter_bounds n σ (fun x h1 h2 => (Hs x h1 h2).1) (t' + 1) a ha1 han halla).2
      have hva2 : v (MVar.e (iterS σ t' a) (iterS σ (t' + 1) a)) = 1 := by
        rw [iterS_shift]
        exact (Hs (iterS σ t' a) hwa.1 hwa.2).2
      have hvb2 : v (MVar.e (iterS σ s' b) (iterS σ (t' + 1) a)) = 1 := by
        rw [heq, iterS_shift]
        exact (Hs (iterS σ s' b) hwb.1 hwb.2).2
      have hww : iterS σ t' a = iterS σ s' b :=
        Hpred (iterS σ (t' + 1) a) hc1 hcn _ _ hwa.2 hwb.2 hva2 hvb2
      exact ih s' a b ha1 han hva hb1 hbn hvb (fun r hr => halla r (by omega))
        (fun r hr => hallb r (by omega)) hww

lemma HS_of {n : ℕ} {salesmen K L : ℤ} {v : MVar → ℤ}
    (h : SatisfiesModel n salesmen K L v) :
    ∀ x, 1 ≤ x → x < n →
    succOf v n x < n ∧ succOf v n x ≠ x ∧ v (MVar.e x (succOf v n x)) = 1 := by
  intro x h1 h2
  obtain ⟨_, hv, hn, hne⟩ := succ_unique h (mem_nonDepot.mpr ⟨h1, h2⟩)
  exact ⟨hn, hne, hv⟩

lemma HU_of {n : ℕ} {salesmen K L : ℤ} {v : MVar → ℤ}
    (h : SatisfiesModel n salesmen K L v) (hL : 2 ≤ L) :
    ∀ x, 1 ≤ x → x < n → 1 ≤ succOf v n x →
    v (MVar.u x) + 1 ≤ v (MVar.u (succOf v n x)) := by
  intro x h1 h2 hσ1
  obtain ⟨hσn, hσne, hv⟩ := HS_of h x h1 h2
  exact u_step h hL (mem_nonDepot.mpr ⟨h1, h2⟩) (mem_nonDepot.mpr ⟨hσ1, hσn⟩)
    (Ne.symm hσne) hv

lemma Hpred_of {n : ℕ} {salesmen K L : ℤ} {v : MVar → ℤ}
    (h : SatisfiesModel n salesmen K L v) :
    ∀ j, 1 ≤ j → j < n → ∀ a b, a < n → b < n →
    v (MVar.e a j) = 1 → v (MVar.e b j) = 1 → a = b := by
  intro j h1 h2 a b ha hb hva hvb
  exact pred_unique h (mem_nonDepot.mpr ⟨h1, h2⟩) ha hb hva hvb

lemma chain_at {n : ℕ} {salesmen K L : ℤ} {v : MVar → ℤ}
    (h : SatisfiesModel n salesmen K L v) (hL : 2 ≤ L) {a : ℕ}
    (ha1 : 1 ≤ a) (han : a < n) :
    (chainFrom (succOf v n) (L.toNat + 1) a).head? = some a ∧
    (∀ x ∈ chainFrom (succOf v n) (L.toNat + 1) a,
      1 ≤ x ∧ x < n ∧ v (MVar.u a) ≤ v (MVar.u x)) ∧
    List.Pairwise (fun x y => v (MVar.u x) < v (MVar.u y))
      (chainFrom (succOf v n) (L.toNat + 1) a) ∧
    (∀ pr ∈ (chainFrom (succOf v n) (L.toNat + 1) a).zip
        ((chainFrom (succOf v n) (L.toNat + 1) a).drop 1 ++ [0]),
      pr.2 = succOf v n pr.1) ∧
    (∀ x, x ∈ chainFrom (succOf v n) (L.toNat + 1) a ↔
      ∃ t, iterS (succOf v n) t a = x ∧
        ∀ s, s ≤ t → 1 ≤ iterS (succOf v n) s a) := by
  apply chain_spec n L v (succOf v n)
    (fun x h1 h2 => ⟨(HS_of h x h1 h2).1, (HS_of h x h1 h2).2.1⟩)
    (HU_of h hL) (fun x hx => (sat_bounds h).2.2 x hx) (L.toNat + 1) a ha1 han
  have hb := (sat_bounds h).2.2 a han
  omega

lemma depOut_facts {n : ℕ} {salesmen K L : ℤ} {v : MVar → ℤ}
    (h : SatisfiesModel n salesmen K L v) (hn : 1 ≤ n) {a : ℕ}
    (ha : a ∈ succTargets v n 0) :
    1 ≤ a ∧ a < n ∧ v (MVar.e 0 a) = 1 := by
  have han : a < n := List.mem_range.mp (List.mem_filter.mp ha).1
  have hva : v (MVar.e 0 a) = 1 := by simpa using (List.mem_filter.mp ha).2
  refine ⟨?_, han, hva⟩
  rcases Nat.eq_zero_or_pos a with h0 | h1
  · exfalso
    rw [h0, (sat_bounds h).2.1 0 hn] at hva
    omega
  · exact h1

lemma coverage {n : ℕ} {salesmen K L : ℤ} {v : MVar → ℤ}
    (h : SatisfiesModel n salesmen K L v) (hL : 2 ≤ L) (hn : 1 ≤ n) :
    ∀ (N x : ℕ), (v (MVar.u x)).toNat ≤ N → 1 ≤ x → x < n →
    x ∈ ((succTargets v n 0).map
      (fun a => chainFrom (succOf v n) (L.toNat + 1) a)).flatten := by
  intro N
  induction N with
  | zero =>
    intro x hux h1x hxn
    have hxnd : x ∈ nonDepot n := mem_nonDepot.mpr ⟨h1x, hxn⟩
    obtain ⟨w, hw⟩ := List.length_eq_one.mp (indeg_count h hxnd)
    have hwmem : w ∈ predTargets v n x := by rw [hw]; simp
    have hwn : w < n := List.mem_range.mp (List.mem_filter.mp hwmem).1
    have hvw : v (MVar.e w x) = 1 := by simpa using (List.mem_filter.mp hwmem).2
    by_cases hw0 : w = 0
    · have hxdep : x ∈ succTargets v n 0 :=
        List.mem_filter.mpr ⟨List.mem_range.mpr hxn, by simp [hw0 ▸ hvw]⟩
      have hx0 : ¬ (x = 0) := by omega
      have hc : chainFrom (succOf v n) (L.toNat + 1) x =
          x :: chainFrom (succOf v n) L.toNat (succOf v n x) := by
        simp [chainFrom, hx0]
      exact List.mem_flatten.mpr ⟨_, List.mem_map.mpr ⟨x, hxdep, rfl⟩,
        by rw [hc]; simp⟩
    · exfalso
      have hw1 : 1 ≤ w := by omega
      have hwnd : w ∈ nonDepot n := mem_nonDepot.mpr ⟨hw1, hwn⟩
      have hwx : w ≠ x := by
        intro heq
        rw [heq, (sat_bounds h).2.1 x hxn] at hvw
        omega
      have hustep := u_step h hL hwnd hxnd hwx hvw
      have hb1 := (sat_bounds h).2.2 w hwn
      have hb2 := (sat_bounds h).2.2 x hxn
      omega
  | succ N ihN =>
    intro x hux h1x hxn
    have hxnd : x ∈ nonDepot n := mem_nonDepot.mpr ⟨h1x, hxn⟩
    obtain ⟨w, hw⟩ := List.length_eq_one.mp (indeg_count h hxnd)
    have hwmem : w ∈ predTargets v n x := by rw [hw]; simp
    have hwn : w < n := List.mem_range.mp (List.mem_filter.mp hwmem).1
    have hvw : v (MVar.e w x) = 1 := by simpa using (List.mem_filter.mp hwmem).2
    by_cases hw0 : w = 0
    · have hxdep : x ∈ succTargets v n 0 :=
        List.mem_filter.mpr ⟨List.mem_range.mpr hxn, by simp [hw0 ▸ hvw]⟩
      have hx0 : ¬ (x = 0) := by omega
      have hc : chainFrom (succOf v n) (L.toNat + 1) x =
          x :: chainFrom (succOf v n) L.toNat (succOf v n x) := by
        simp [chainFrom, hx0]
      exact List.mem_flatten.mpr ⟨_, List.mem_map.mpr ⟨x, hxdep, rfl⟩,
        by rw [hc]; simp⟩
    · have hw1 : 1 ≤ w := by omega
      have hwnd : w ∈ nonDepot n := mem_nonDepot.mpr ⟨hw1, hwn⟩
      have hwx : w ≠ x := by
        intro heq
        rw [heq, (sat_bounds h).2.1 x hxn] at hvw
        omega
      have hustep := u_step h hL hwnd hxnd hwx hvw
      have hb1 := (sat_bounds h).2.2 w hwn
      have hb2 := (sat_bounds h).2.2 x hxn
      have hwtoNat : (v (MVar.u w)).toNat ≤ N := by omega
      have hwflat := ihN w hwtoNat hw1 hwn
      obtain ⟨lchain, hlmem, hwl⟩ := List.mem_flatten.mp hwflat
      obtain ⟨a, hadep, rfl⟩ := List.mem_map.mp hlmem
      obtain ⟨ha1, han, hva⟩ := depOut_facts h hn hadep
      -- x is the successor of w
      obtain ⟨hwt, _, _, _⟩ := succ_unique h hwnd
      have hxmem : x ∈ succTargets v n w :=
        List.mem_filter.mpr ⟨List.mem_range.mpr hxn, by simp [hvw]⟩
      rw [hwt] at hxmem
      have hxσ : x = succOf v n w := by simpa using hxmem
      obtain ⟨_, _, _, _, hiff⟩ := chain_at h hL ha1 han
      obtain ⟨t, ht, hall⟩ := (hiff w).mp hwl
      have hxiter : iterS (succOf v n) (t + 1) a = x := by
        rw [iterS_shift, ht, ← hxσ]
      have hxin : x ∈ chainFrom (succOf v n) (L.toNat + 1) a := by
        apply (hiff x).mpr
        refine ⟨t + 1, hxiter, ?_⟩
        intro s hs
        by_cases hst : s ≤ t
        · exact hall s hst
        · have hseq : s = t + 1 := by omega
          subst hseq
          rw [hxiter]
          exact h1x
      exact List.mem_flatten.mpr ⟨_, List.mem_map.mpr ⟨a, hadep, rfl⟩, hxin⟩

lemma model_paths (n k : ℕ) (salesmen K L : ℤ) (v : MVar → ℤ)
    (hn : 1 ≤ n) (hL : 2 ≤ L) (hk : salesmen = (k : ℤ))
    (h : SatisfiesModel n salesmen K L v) :
    ∃ paths : List (List ℕ),
      paths.length = k ∧
      (selectedEdges n (solOf v)).filter (fun q => q.1 = 0) =
        paths.map (fun p => (0, p.headD 0)) ∧
      (∀ p ∈ paths, p ≠ [] ∧ ∀ x ∈ p, x ≠ 0) ∧
      paths.flatten.Nodup ∧
      (∀ p ∈ paths, ∀ pr ∈ p.zip (p.drop 1 ++ [0]),
        (selectedEdges n (solOf v)).filter (fun q => q.1 = pr.1) = [pr]) ∧
      (∀ q ∈ selectedEdges n (solOf v), q.1 = 0 ∨ q.1 ∈ paths.flatten) ∧
      paths.flatten.Perm (nonDepot n) := by
  have hflat_nodup : ((succTargets v n 0).map
      (fun a => chainFrom (succOf v n) (L.toNat + 1) a)).flatten.Nodup := by
    rw [List.nodup_flatten]
    constructor
    · intro l hl
      obtain ⟨a, ha, rfl⟩ := List.mem_map.mp hl
      obtain ⟨ha1, han, _⟩ := depOut_facts h hn ha
      have hpw := (chain_at h hL ha1 han).2.2.1
      exact hpw.imp (fun hlt heq => absurd (heq ▸ hlt) (lt_irrefl _))
    · rw [List.pairwise_map]
      have hnd : (succTargets v n 0).Nodup := (List.nodup_range n).filter _
      refine List.Pairwise.imp_of_mem ?_ hnd
      intro a b ha hb hab
      intro x hxa hxb
      obtain ⟨ha1, han, hva⟩ := depOut_facts h hn ha
      obtain ⟨hb1, hbn, hvb⟩ := depOut_facts h hn hb
      obtain ⟨_, _, _, _, hiffa⟩ := chain_at h hL ha1 han
      obtain ⟨_, _, _, _, hiffb⟩ := chain_at h hL hb1 hbn
      obtain ⟨t, ht, halla⟩ := (hiffa x).mp hxa
      obtain ⟨s, hs, hallb⟩ := (hiffb x).mp hxb
      exact hab (iter_meet n v (succOf v n)
        (fun y h1 h2 => ⟨(HS_of h y h1 h2).1, (HS_of h y h1 h2).2.2⟩)
        (Hpred_of h) (by omega) t s a b ha1 han hva hb1 hbn hvb halla hallb
        (ht.trans hs.symm))
  have hmem_iff : ∀ x, (x ∈ ((succTargets v n 0).map
      (fun a => chainFrom (succOf v n) (L.toNat + 1) a)).flatten ↔ 1 ≤ x ∧ x < n) := by
    intro x
    constructor
    · intro hx
      obtain ⟨l, hl, hxl⟩ := List.mem_flatten.mp hx
      obtain ⟨a, ha, rfl⟩ := List.mem_map.mp hl
      obtain ⟨ha1, han, _⟩ := depOut_facts h hn ha
      obtain ⟨_, hmem, _, _, _⟩ := chain_at h hL ha1 han
      exact ⟨(hmem x hxl).1, (hmem x hxl).2.1⟩
    · intro ⟨h1x, hxn⟩
      exact coverage h hL hn (v (MVar.u x)).toNat x (le_refl _) h1x hxn
  refine ⟨(succTargets v n 0).map (fun a => chainFrom (succOf v n) (L.toNat + 1) a),
    ?_, ?_, ?_, hflat_nodup, ?_, ?_, ?_⟩
  · rw [List.length_map]
    exact depot_count h hn hk
  · rw [filter_selectedEdges h (show (0 : ℕ) < n from hn), List.map_map]
    apply List.map_congr_left
    intro a ha
    obtain ⟨ha1, han, _⟩ := depOut_facts h hn ha
    have hhead := (chain_at h hL ha1 han).1
    show ((0 : ℕ), a) =
      ((0 : ℕ), (chainFrom (succOf v n) (L.toNat + 1) a).headD 0)
    rw [headD_of_headQ hhead]
  · intro p hp
    obtain ⟨a, ha, rfl⟩ := List.mem_map.mp hp
    obtain ⟨ha1, han, _⟩ := depOut_facts h hn ha
    obtain ⟨hhead, hmem, _, _, _⟩ := chain_at h hL ha1 han
    constructor
    · intro hnil
      rw [hnil] at hhead
      simp at hhead
    · intro x hx
      have h1 := (hmem x hx).1
      omega
  · intro p hp pr hpr
    obtain ⟨a, ha, rfl⟩ := List.mem_map.mp hp
    obtain ⟨ha1, han, _⟩ := depOut_facts h hn ha
    obtain ⟨_, hmem, _, hpairs, _⟩ := chain_at h hL ha1 han
    have hσ := hpairs pr hpr
    obtain ⟨c, d⟩ := pr
    obtain ⟨hc1, hcn, _⟩ := hmem c (List.of_mem_zip hpr).1
    have hcnd : c ∈ nonDepot n := mem_nonDepot.mpr ⟨hc1, hcn⟩
    obtain ⟨hct, hvc, _, _⟩ := succ_unique h hcnd
    rw [filter_selectedEdges h hcn, hct]
    simp only [List.map_cons, List.map_nil]
    have hd : d = succOf v n c := hσ
    rw [hd]
  · intro q hq
    rcases q with ⟨a, b⟩
    obtain ⟨han, hbn, hv⟩ := mem_selectedEdges h hq
    by_cases ha0 : a = 0
    · exact Or.inl ha0
    · exact Or.inr ((hmem_iff a).mpr ⟨by omega, han⟩)
  · refine (List.perm_ext_iff_of_nodup hflat_nodup (List.nodup_range' _ _)).mpr ?_
    intro x
    rw [List.mem_range'_1]
    have hiff := hmem_iff x
    constructor
    · intro hx
      have h2 := hiff.mp hx
      omega
    · intro hx
      exact hiff.mpr (by omega)

lemma extract_model (n k : ℕ) (salesmen K L : ℤ) (v : MVar → ℤ) (fuel : ℕ)
    (hn : 1 ≤ n) (hL : 2 ≤ L) (hk : salesmen = (k : ℤ))
    (h : SatisfiesModel n salesmen K L v) (hf : n ≤ fuel) :
    ∃ paths : List (List ℕ),
      paths.length = k ∧
      (∀ p ∈ paths, p ≠ [] ∧ ∀ x ∈ p, x ≠ 0) ∧
      paths.flatten.Nodup ∧
      paths.flatten.Perm (nonDepot n) ∧
      extractRoutes fuel k (selectedEdges n (solOf v)) =
        some (paths.map (fun p => 0 :: p), []) ∧
      (selectedEdges n (solOf v)).Perm
        ((paths.map (fun p => (0 :: p).zip (p ++ [0]))).flatten) := by
  obtain ⟨paths, hlen, h1, h2, h3, h4, h5, hperm⟩ :=
    model_paths n k salesmen K L v hn hL hk h
  have hflen : paths.flatten.length = n - 1 := by
    rw [hperm.length_eq]
    simp [nonDepot]
  have hfuel : paths.flatten.length + 1 ≤ fuel := by omega
  obtain ⟨hex, hpe⟩ :=
    extract_core paths (selectedEdges n (solOf v)) fuel h1 h2 h3 h4 h5 hfuel
  refine ⟨paths, hlen, h2, h3, hperm, ?_, hpe⟩
  rw [← hlen]
  exact hex

lemma sum_len_cons : ∀ (P : List (List ℕ)),
    ((P.map (fun p => (0 : ℕ) :: p)).map List.length).sum =
    (P.map List.length).sum + P.length := by
  intro P
  induction P with
  | nil => rfl
  | cons p t ih =>
    simp only [List.map_cons, List.sum_cons, List.length_cons, ih]
    omega

/-- Claim C3: for a satisfying assignment with one salesman (default
bounds K arbitrary, L = n), the extracted route is a single cycle: the
extraction terminates consuming every selected edge, and the single route
starts at the depot, has length n, and contains every node of 0..n-1
exactly once, the last selected edge returning to the depot without the
depot being re-appended. -/
theorem thm_single_salesman_hamiltonian (n : ℕ) (K : ℤ) (v : MVar → ℤ) (fuel : ℕ)
    (hn : 2 ≤ n) (hv : SatisfiesModel n 1 K (n : ℤ) v) (hf : n ≤ fuel) :
    ∃ route : List ℕ,
      extractRoutes fuel 1 (selectedEdges n (solOf v)) = some ([route], []) ∧
      route.head? = some 0 ∧ route.length = n ∧ route.Nodup ∧
      (∀ x, x ∈ route ↔ x < n) ∧
      (selectedEdges n (solOf v)).Perm (route.zip (route.drop 1 ++ [0])) := by
  obtain ⟨paths, hlen, hne, hnd, hperm, hex, hpe⟩ :=
    extract_model n 1 1 K (n : ℤ) v fuel (by omega) (by exact_mod_cast hn)
      (by norm_num) hv hf
  obtain ⟨p, rfl⟩ := List.length_eq_one.mp hlen
  have hflat : ([p] : List (List ℕ)).flatten = p := by simp
  rw [hflat] at hnd hperm
  have hpmem : ∀ y, y ∈ p ↔ 1 ≤ y ∧ y < n := by
    intro y
    rw [hperm.mem_iff, mem_nonDepot]
  refine ⟨0 :: p, by simpa using hex, rfl, ?_, ?_, ?_, ?_⟩
  · have hl : p.length = n - 1 := by
      rw [hperm.length_eq]
      simp [nonDepot]
    simp only [List.length_cons, hl]
    omega
  · have h0 : (0 : ℕ) ∉ p := fun hx => ((hne p (by simp)).2 0 hx) rfl
    exact List.nodup_cons.mpr ⟨h0, hnd⟩
  · intro x
    constructor
    · intro hxr
      rcases List.mem_cons.mp hxr with h0 | hp2
      · omega
      · exact ((hpmem x).mp hp2).2
    · intro hxn
      by_cases hx0 : x = 0
      · simp [hx0]
      · exact List.mem_cons_of_mem _ ((hpmem x).mpr ⟨by omega, hxn⟩)
  · have hone : (([p] : List (List ℕ)).map
        (fun p => (0 :: p).zip (p ++ [0]))).flatten = (0 :: p).zip (p ++ [0]) := by
      simp
    rw [hone] at hpe
    exact hpe

/-- Witness for claim C3 at the 3-node tour assignment. -/
theorem thm_single_salesman_hamiltonian_inst :
    SatisfiesModel 3 1 2 3 vWit3 ∧
    ∃ route : List ℕ,
      extractRoutes 3 1 (selectedEdges 3 (solOf vWit3)) = some ([route], []) ∧
      route.head? = some 0 ∧ route.length = 3 ∧ route.Nodup ∧
      (∀ x, x ∈ route ↔ x < 3) ∧
      (selectedEdges 3 (solOf vWit3)).Perm (route.zip (route.drop 1 ++ [0])) := by
  have hs : SatisfiesModel 3 1 2 3 vWit3 := by decide
  exact ⟨hs, thm_single_salesman_hamiltonian 3 2 vWit3 3 (by omega) hs (le_refl 3)⟩

/-- Claim C4 (amended): for a satisfying assignment with k salesmen
(L = n), extraction terminates consuming every selected edge and returns
exactly k routes, each non-empty, starting at the depot and without
repeated nodes; the non-depot entries of the routes partition the
non-depot nodes, and the sum of the route lengths is n + k - 1 (not n:
each of the k routes also contains the depot once). -/
theorem thm_multi_salesman_partition (n k : ℕ) (K : ℤ) (v : MVar → ℤ) (fuel : ℕ)
    (hn : 2 ≤ n) (hv : SatisfiesModel n (k : ℤ) K (n : ℤ) v) (hf : n ≤ fuel) :
    ∃ routes : List (List ℕ),
      extractRoutes fuel k (selectedEdges n (solOf v)) = some (routes, []) ∧
      routes.length = k ∧
      (∀ r ∈ routes, r ≠ [] ∧ r.head? = some 0 ∧ r.Nodup) ∧
      ((routes.map (fun r => r.drop 1)).flatten).Perm (nonDepot n) ∧
      (routes.map List.length).sum = n + k - 1 := by
  obtain ⟨paths, hlen, hne, hnd, hperm, hex, _⟩ :=
    extract_model n k (k : ℤ) K (n : ℤ) v fuel (by omega) (by exact_mod_cast hn)
      rfl hv hf
  refine ⟨paths.map (fun p => 0 :: p), hex, ?_, ?_, ?_, ?_⟩
  · rw [List.length_map, hlen]
  · intro r hr
    obtain ⟨p, hp, rfl⟩ := List.mem_map.mp hr
    refine ⟨by simp, rfl, ?_⟩
    have h0 : (0 : ℕ) ∉ p := fun hx => ((hne p hp).2 0 hx) rfl
    exact List.nodup_cons.mpr ⟨h0, (List.nodup_flatten.mp hnd).1 p hp⟩
  · have hcomp : ((fun r => List.drop 1 r) ∘ (fun p => (0 : ℕ) :: p)) = id :=
      funext (fun p => rfl)
    rw [List.map_map, hcomp, List.map_id]
    exact hperm
  · have hflen : paths.flatten.length = n - 1 := by
      rw [hperm.length_eq]
      simp [nonDepot]
    rw [sum_len_cons, ← List.length_flatten, hflen, hlen]
    omega

/-- Witness for claim C4 (amended) at the 5-node, two-salesmen
assignment. -/
theorem thm_multi_salesman_partition_inst :
    SatisfiesModel 5 2 2 5 vWit5 ∧
    ∃ routes : List (List ℕ),
      extractRoutes 10 2 (selectedEdges 5 (solOf vWit5)) = some (routes, []) ∧
      routes.length = 2 ∧
      (∀ r ∈ routes, r ≠ [] ∧ r.head? = some 0 ∧ r.Nodup) ∧
      ((routes.map (fun r => r.drop 1)).flatten).Perm (nonDepot 5) ∧
      (routes.map List.length).sum = 5 + 2 - 1 := by
  have hs : SatisfiesModel 5 2 2 5 vWit5 := by decide
  exact ⟨hs, thm_multi_salesman_partition 5 2 2 vWit5 10 (by omega) hs (by omega)⟩

/-- Claim C9 (amended): when the selected edges form exactly salesmen
vertex-disjoint simple closed routes through the depot covering every
selected edge (each route's interior is non-empty, avoids the depot, no
node is shared within or across interiors, every interior node has its
unique selected edge pointing along the route, and the depot rows of the
list are the route-starting edges in order), the extraction consumes every
selected edge exactly once: it returns the salesmen routes and an empty
working list, and the consumed route edges are a permutation of the
selected edges, so no edge is used twice. -/
theorem thm_disjoint_routes_consume_all (sel : List (ℕ × ℕ))
    (paths : List (List ℕ)) (fuel : ℕ)
    (h1 : sel.filter (fun q => q.1 = 0) = paths.map (fun p => (0, p.headD 0)))
    (h2 : ∀ p ∈ paths, p ≠ [] ∧ ∀ x ∈ p, x ≠ 0)
    (h3 : paths.flatten.Nodup)
    (h4 : ∀ p ∈ paths, ∀ pr ∈ p.zip (p.drop 1 ++ [0]),
      sel.filter (fun q => q.1 = pr.1) = [pr])
    (h5 : ∀ q ∈ sel, q.1 = 0 ∨ q.1 ∈ paths.flatten)
    (hf : paths.flatten.length + 1 ≤ fuel) :
    extractRoutes fuel paths.length sel = some (paths.map (fun p => 0 :: p), []) ∧
    sel.Perm ((paths.map (fun p => (0 :: p).zip (p ++ [0]))).flatten) :=
  extract_core paths sel fuel h1 h2 h3 h4 h5 hf

/-- Witness for claim C9 (amended): two disjoint tours on 5 nodes. -/
theorem thm_disjoint_routes_consume_all_inst :
    extractRoutes 5 pathsNine.length selNine =
      some (pathsNine.map (fun p => 0 :: p), []) ∧
    selNine.Perm ((pathsNine.map (fun p => (0 :: p).zip (p ++ [0]))).flatten) := by
  apply thm_disjoint_routes_consume_all selNine pathsNine 5
  · decide
  · decide
  · decide
  · decide
  · decide
  · decide
